import Mathlib

/-!
# Verification of the lunachat persistent forum core

A shallow embedding of the data layer of the `lunachat` forum
(`src/state/*.rs`, `src/bin/main.rs`, `src/bin/migrate.rs`, `src/auth.rs`)
together with proofs about the identifier allocator, the binary codec,
the thread/post mutation protocols, the username index, and the
migration passes.

Stored 64-bit integers are modelled as `Nat` with explicit `% 2^64`
wherever the Rust `u64` arithmetic could overflow.  Tables backed by the
ordered key-value engine (sled `Tree`s) are modelled as association
lists sorted by numeric key: iteration order of a tree is the
lexicographic order of the encoded keys, and the codec theorems below
show that this coincides with numeric order of the ids.
-/

namespace Lunachat

/-- The table discriminants of `TableType` in `src/state/mod.rs`. -/
inductive TableType where
  | posts
  | users
  | highestKeys
  | threads
deriving DecidableEq, Repr

/-- The `highest_keys` tree (`HighestKeys` in `src/state/key.rs`): one
optional stored counter per `TableType`. -/
structure HighestKeys where
  posts : Option Nat
  users : Option Nat
  highestKeys : Option Nat
  threads : Option Nat
deriving DecidableEq, Repr

/-- A fresh database: no counter entry is present for any table. -/
def HighestKeys.fresh : HighestKeys :=
  ⟨none, none, none, none⟩

/-- Read the stored counter entry for a table. -/
def HighestKeys.get (hk : HighestKeys) : TableType → Option Nat
  | .posts => hk.posts
  | .users => hk.users
  | .highestKeys => hk.highestKeys
  | .threads => hk.threads

/-- Store a counter entry for a table. -/
def HighestKeys.set (hk : HighestKeys) : TableType → Nat → HighestKeys
  | .posts, v => { hk with posts := some v }
  | .users, v => { hk with users := some v }
  | .highestKeys, v => { hk with highestKeys := some v }
  | .threads, v => { hk with threads := some v }

/-- The allocator `HighestKeys::next` (`src/state/key.rs`).  The sled
`fetch_and_update` call reads the current entry, stores
`current.map_or(0, id) + 1`, and *returns the previous entry*; the
function then deserializes that previous entry, defaulting to `0` when
it was absent.  The stored `u64` wraps at `2^64`. -/
def HighestKeys.next (hk : HighestKeys) (t : TableType) : Nat × HighestKeys :=
  let old := (hk.get t).getD 0
  (old, hk.set t ((old + 1) % 2 ^ 64))

/-- Repeated allocation: the list of keys returned by `n` successive
`next t` calls, together with the final allocator state. -/
def HighestKeys.nextN (hk : HighestKeys) (t : TableType) : Nat → List Nat × HighestKeys
  | 0 => ([], hk)
  | n + 1 =>
    let (k, hk') := hk.next t
    let (ks, hk'') := hk'.nextN t n
    (k :: ks, hk'')

theorem HighestKeys.get_set (hk : HighestKeys) (t : TableType) (v : Nat) :
    (hk.set t v).get t = some v := by
  cases t <;> rfl

theorem HighestKeys.next_stores (hk : HighestKeys) (t : TableType) :
    ((hk.next t).2).get t = some ((((hk.get t).getD 0) + 1) % 2 ^ 64) := by
  simp [HighestKeys.next, HighestKeys.get_set]

/-- From a state whose stored counter for `t` is `c` with
`c + n ≤ 2^64`, `n` calls return `c, c+1, …, c+n-1`. -/
theorem HighestKeys.nextN_from (t : TableType) (n : Nat) :
    ∀ (hk : HighestKeys) (c : Nat), hk.get t = some c → c + n ≤ 2 ^ 64 →
      (hk.nextN t n).1 = (List.range n).map (c + ·) := by
  induction n with
  | zero => intro hk c _ _; rfl
  | succ n ih =>
    intro hk c hget hle
    have hmod : (c + 1) % 2 ^ 64 = c + 1 ∨ (c + 1 = 2 ^ 64 ∧ (c + 1) % 2 ^ 64 = 0) := by
      rcases Nat.lt_or_ge (c + 1) (2 ^ 64) with h | h
      · exact Or.inl (Nat.mod_eq_of_lt h)
      · have : c + 1 = 2 ^ 64 := le_antisymm (by omega) h
        exact Or.inr ⟨this, by simp [this]⟩
    have hnext : hk.next t = (c, hk.set t ((c + 1) % 2 ^ 64)) := by
      simp [HighestKeys.next, hget]
    rcases hmod with h | ⟨hc, h⟩
    · have := ih (hk.set t ((c + 1) % 2 ^ 64)) (c + 1)
        (by rw [h]; exact HighestKeys.get_set _ _ _) (by omega)
      simp only [HighestKeys.nextN, hnext, this, List.range_succ_eq_map]
      simp [List.map_map, Function.comp]
      intro a _
      omega
    · have hn : n = 0 := by omega
      subst hn
      simp [HighestKeys.nextN, hnext, List.range_succ]

/-- On a fresh database, `n ≤ 2^64` calls of `next t` return
`0, 1, …, n-1` in order. -/
theorem HighestKeys.nextN_fresh (t : TableType) (n : Nat) (hn : n ≤ 2 ^ 64) :
    (HighestKeys.fresh.nextN t n).1 = List.range n := by
  cases n with
  | zero => rfl
  | succ n =>
    have hnext : HighestKeys.fresh.next t = (0, HighestKeys.fresh.set t (1 % 2 ^ 64)) := by
      cases t <;> rfl
    have h1 : (1 : Nat) % 2 ^ 64 = 1 := by norm_num
    have := HighestKeys.nextN_from t n (HighestKeys.fresh.set t (1 % 2 ^ 64)) 1
      (by rw [h1]; exact HighestKeys.get_set _ _ _) (by omega)
    simp only [HighestKeys.nextN, hnext, this, List.range_succ_eq_map]
    congr 1
    apply List.map_congr_left
    intro a _
    omega

/-! ## The binary codec

`BINCODE` in `src/state/mod.rs` is `bincode::options().with_big_endian()`.
`bincode::options()` selects *varint* integer encoding (the crate's
documented default for `DefaultOptions`), and `.with_big_endian()` makes
the multi-byte parts big-endian.  A `u64` value `n` is therefore written
as: `[n]` when `n ≤ 250`; `251` followed by `n` as a big-endian `u16`
when `n ≤ 65535`; `252` followed by a big-endian `u32` when
`n ≤ 4294967295`; and `253` followed by a big-endian `u64` otherwise. -/

/-- The big-endian fixed-width byte string of `v`, `w` bytes, most
significant first. -/
def beBytes : Nat → Nat → List Nat
  | 0, _ => []
  | w + 1, v => v / 256 ^ w :: beBytes w (v % 256 ^ w)

/-- Lexicographic comparison of byte strings, the order in which the
sled engine iterates its keys. -/
def lexCmp : List Nat → List Nat → Ordering
  | [], [] => .eq
  | [], _ :: _ => .lt
  | _ :: _, [] => .gt
  | a :: as, b :: bs =>
    if a < b then .lt else if b < a then .gt else lexCmp as bs

/-- Holds when `x` is lexicographically at most `y`. -/
def lexLe (x y : List Nat) : Prop :=
  lexCmp x y ≠ .gt

instance (x y : List Nat) : Decidable (lexLe x y) := by
  unfold lexLe; infer_instance

/-- The `BINCODE` encoding of a `u64` (varint, big-endian): the byte
string under which 64-bit ids are stored by `DbTreeLookup::insert`. -/
def encU64 (n : Nat) : List Nat :=
  if n ≤ 250 then [n]
  else if n ≤ 65535 then 251 :: beBytes 2 n
  else if n ≤ 4294967295 then 252 :: beBytes 4 n
  else 253 :: beBytes 8 n

theorem lexCmp_self : ∀ x : List Nat, lexCmp x x = .eq := by
  intro x
  induction x with
  | nil => rfl
  | cons a as ih => simp [lexCmp, ih]

theorem lexCmp_swap : ∀ x y : List Nat, lexCmp x y = .lt → lexCmp y x = .gt := by
  intro x
  induction x with
  | nil => intro y h; cases y with
    | nil => simp [lexCmp] at h
    | cons b bs => rfl
  | cons a as ih =>
    intro y h
    cases y with
    | nil => simp [lexCmp] at h
    | cons b bs =>
      simp only [lexCmp] at h ⊢
      rcases Nat.lt_trichotomy a b with hab | hab | hab
      · simp [hab, Nat.lt_asymm hab]
      · subst hab
        simp only [lt_irrefl, if_false] at h ⊢
        exact ih bs h
      · simp [hab, Nat.lt_asymm hab] at h

/-- Big-endian fixed-width bytes are strictly monotone below `256^w`. -/
theorem beBytes_strictMono :
    ∀ (w v1 v2 : Nat), v1 < v2 → v2 < 256 ^ w →
      lexCmp (beBytes w v1) (beBytes w v2) = .lt := by
  intro w
  induction w with
  | zero => intro v1 v2 h12 h2; simp at h2; omega
  | succ w ih =>
    intro v1 v2 h12 h2
    simp only [beBytes, lexCmp]
    rcases Nat.lt_or_ge (v1 / 256 ^ w) (v2 / 256 ^ w) with hq | hq
    · simp [hq]
    · have hq' : v1 / 256 ^ w = v2 / 256 ^ w := by
        have := Nat.div_le_div_right (c := 256 ^ w) (Nat.le_of_lt h12)
        omega
      have hpow : 0 < 256 ^ w := Nat.pos_pow_of_pos w (by norm_num)
      have hr : v1 % 256 ^ w < v2 % 256 ^ w := by
        have h1 := Nat.div_add_mod v1 (256 ^ w)
        have h2' := Nat.div_add_mod v2 (256 ^ w)
        rw [hq'] at h1
        omega
      have hr2 : v2 % 256 ^ w < 256 ^ w := Nat.mod_lt _ hpow
      simp [hq', ih _ _ hr hr2]

/-- The varint big-endian encoding is strictly monotone for values
below `2^64`. -/
theorem lexCmp_cons_self (x : Nat) (as bs : List Nat) :
    lexCmp (x :: as) (x :: bs) = lexCmp as bs := by
  simp [lexCmp]

theorem lexCmp_cons_lt {x y : Nat} (as bs : List Nat) (h : x < y) :
    lexCmp (x :: as) (y :: bs) = .lt := by
  simp [lexCmp, h]

theorem encU64_strictMono (a b : Nat) (hab : a < b) (hb : b < 2 ^ 64) :
    lexCmp (encU64 a) (encU64 b) = .lt := by
  have e2 : (256 : Nat) ^ 2 = 65536 := by norm_num
  have e4 : (256 : Nat) ^ 4 = 4294967296 := by norm_num
  have e8 : (256 : Nat) ^ 8 = 18446744073709551616 := by norm_num
  unfold encU64
  split_ifs with ha1 hb1 hb2 hb3 ha2 hb1 hb2 hb3 ha3 hb1 hb2 hb3 hb1 hb2 hb3 <;>
    first
      | exact absurd hab (by omega)
      | exact lexCmp_cons_lt _ _ (by omega)
      | (rw [lexCmp_cons_self]
         refine beBytes_strictMono _ a b hab ?_
         simp only [e2, e4, e8]
         omega)

/-- Claim C3, counterexample: the codec does not produce 8-byte
encodings — the id value `0` is encoded as the single byte `[0]`. -/
theorem encU64_zero_not_eight_bytes :
    encU64 0 = [0] ∧ (encU64 0).length ≠ 8 := by
  constructor
  · rfl
  · decide

/-- Claim C3 (amended): the canonical codec `BINCODE` encodes a 64-bit
identifier value in big-endian *varint* form (1, 3, 5 or 9 bytes, not a
fixed 8); the order correspondence nevertheless holds: for all
identifier values `a` and `b` below `2^64`, `a ≤ b` exactly when
`encU64 a` is lexicographically at most `encU64 b`. -/
theorem encU64_order_correspondence (a b : Nat) (ha : a < 2 ^ 64) (hb : b < 2 ^ 64) :
    a ≤ b ↔ lexLe (encU64 a) (encU64 b) := by
  constructor
  · intro hle
    rcases Nat.lt_or_ge a b with h | h
    · rw [lexLe, encU64_strictMono a b h hb]
      simp
    · have : a = b := by omega
      subst this
      rw [lexLe, lexCmp_self]
      simp
  · intro h
    by_contra hcon
    have hba : b < a := by omega
    have := lexCmp_swap _ _ (encU64_strictMono b a hba ha)
    exact h this

/-- Witness for `encU64_order_correspondence` at `a = 3`, `b = 300`. -/
theorem encU64_order_correspondence_witness :
    (3 : Nat) < 2 ^ 64 ∧ (300 : Nat) < 2 ^ 64 ∧
      ((3 : Nat) ≤ 300 ↔ lexLe (encU64 3) (encU64 300)) :=
  ⟨by norm_num, by norm_num,
    encU64_order_correspondence 3 300 (by norm_num) (by norm_num)⟩

/-! ## Records and tables -/

/-- A post record (`Post` in `src/state/post.rs`); ids are modelled as
`Nat`. -/
structure Post where
  key : Nat
  body : String
  author : Nat
  parent : Option Nat
  children : List Nat
  thread : Nat
deriving DecidableEq, Repr

/-- A thread record (`Thread` in `src/state/thread.rs`). -/
structure Thread where
  key : Nat
  title : String
  post : Nat
deriving DecidableEq, Repr

/-- The error variants of `src/error.rs` reachable from the modelled
operations. -/
inductive Err where
  | threadHasNoPosts (k : Nat)
  | postNotFound (k : Nat)
deriving DecidableEq, Repr

/-- A sled `Tree` modelled as an association list ordered by numeric
key; by `encU64_order_correspondence` this is the same order in which
sled iterates the `BINCODE`-encoded keys. -/
def lookupTab {α : Type} (k : Nat) : List (Nat × α) → Option α
  | [] => none
  | (k', v) :: rest => if k' = k then some v else lookupTab k rest

/-- The write `Tree::insert`: replace the entry at `k`, or add it at its sorted
position. -/
def insertTab {α : Type} (k : Nat) (v : α) : List (Nat × α) → List (Nat × α)
  | [] => [(k, v)]
  | (k', v') :: rest =>
    if k < k' then (k, v) :: (k', v') :: rest
    else if k = k' then (k, v) :: rest
    else (k', v') :: insertTab k v rest

/-- The table's keys are strictly ascending (sled iteration order). -/
def SortedTab {α : Type} (t : List (Nat × α)) : Prop :=
  (t.map Prod.fst).Pairwise (· < ·)

instance {α : Type} (t : List (Nat × α)) : Decidable (SortedTab t) := by
  unfold SortedTab
  infer_instance

theorem lookupTab_insertTab_self {α : Type} (k : Nat) (v : α) (t : List (Nat × α)) :
    lookupTab k (insertTab k v t) = some v := by
  induction t with
  | nil => simp [insertTab, lookupTab]
  | cons e rest ih =>
    obtain ⟨k', v'⟩ := e
    by_cases h1 : k < k'
    · simp [insertTab, lookupTab, h1]
    · by_cases h2 : k = k'
      · simp [insertTab, lookupTab, h1, h2]
      · simp only [insertTab, if_neg h1, if_neg h2, lookupTab]
        rw [if_neg (fun h => h2 h.symm)]
        exact ih

theorem lookupTab_insertTab_ne {α : Type} {k k0 : Nat} (hne : k ≠ k0) (v : α)
    (t : List (Nat × α)) : lookupTab k (insertTab k0 v t) = lookupTab k t := by
  induction t with
  | nil =>
    simp only [insertTab, lookupTab]
    rw [if_neg (by omega : ¬ k0 = k)]
  | cons e rest ih =>
    obtain ⟨k', v'⟩ := e
    by_cases h1 : k0 < k'
    · simp only [insertTab, if_pos h1, lookupTab]
      rw [if_neg (fun h => hne h.symm)]
    · by_cases h2 : k0 = k'
      · simp only [insertTab, if_neg h1, if_pos h2, lookupTab]
        rw [if_neg (fun h => hne h.symm), if_neg (by omega : ¬ k' = k)]
      · simp only [insertTab, if_neg h1, if_neg h2, lookupTab, ih]

/-- Membership in an updated sorted table: the new entry, or an old
entry at a different key. -/
theorem mem_insertTab {α : Type} {t : List (Nat × α)} (hs : SortedTab t)
    {k : Nat} {v : α} {e : Nat × α} :
    e ∈ insertTab k v t ↔ e = (k, v) ∨ (e ∈ t ∧ e.1 ≠ k) := by
  induction t with
  | nil =>
    simp [insertTab]
  | cons x rest ih =>
    obtain ⟨k', v'⟩ := x
    simp only [SortedTab, List.map_cons, List.pairwise_cons] at hs
    have hs2 : SortedTab rest := hs.2
    have hk' : ∀ y ∈ rest, k' < y.1 := fun y hy =>
      hs.1 y.1 (List.mem_map_of_mem Prod.fst hy)
    by_cases h1 : k < k'
    · rw [insertTab, if_pos h1]
      simp only [List.mem_cons]
      constructor
      · rintro (h | h | h)
        · exact Or.inl h
        · exact Or.inr ⟨Or.inl h, by subst h; show k' ≠ k; omega⟩
        · exact Or.inr ⟨Or.inr h, by have := hk' e h; omega⟩
      · rintro (h | ⟨h | h, hne⟩)
        · exact Or.inl h
        · exact Or.inr (Or.inl h)
        · exact Or.inr (Or.inr h)
    · by_cases h2 : k = k'
      · subst h2
        rw [insertTab, if_neg h1, if_pos rfl]
        simp only [List.mem_cons]
        constructor
        · rintro (h | h)
          · exact Or.inl h
          · exact Or.inr ⟨Or.inr h, by have := hk' e h; omega⟩
        · rintro (h | ⟨h | h, hne⟩)
          · exact Or.inl h
          · exact absurd (by rw [h] : e.1 = k) hne
          · exact Or.inr h
      · rw [insertTab, if_neg h1, if_neg h2]
        simp only [List.mem_cons, ih hs2]
        constructor
        · rintro (h | h | ⟨h, hne⟩)
          · exact Or.inr ⟨Or.inl h, by subst h; show k' ≠ k; omega⟩
          · exact Or.inl h
          · exact Or.inr ⟨Or.inr h, hne⟩
        · rintro (h | ⟨h | h, hne⟩)
          · exact Or.inr (Or.inl h)
          · exact Or.inl h
          · exact Or.inr (Or.inr ⟨h, hne⟩)

theorem insertTab_sorted {α : Type} {t : List (Nat × α)} (hs : SortedTab t)
    (k : Nat) (v : α) : SortedTab (insertTab k v t) := by
  induction t with
  | nil => simp [insertTab, SortedTab]
  | cons x rest ih =>
    obtain ⟨k', v'⟩ := x
    simp only [SortedTab, List.map_cons, List.pairwise_cons] at hs
    have hs' := ih hs.2
    by_cases h1 : k < k'
    · rw [insertTab, if_pos h1]
      simp only [SortedTab, List.map_cons, List.pairwise_cons]
      refine ⟨?_, hs.1, hs.2⟩
      intro a ha
      rcases List.mem_cons.mp ha with rfl | ha
      · exact h1
      · have := hs.1 a ha
        omega
    · by_cases h2 : k = k'
      · subst h2
        rw [insertTab, if_neg h1, if_pos rfl]
        simp only [SortedTab, List.map_cons, List.pairwise_cons]
        exact hs
      · rw [insertTab, if_neg h1, if_neg h2]
        simp only [SortedTab, List.map_cons, List.pairwise_cons]
        refine ⟨?_, hs'⟩
        intro a ha
        rcases List.mem_map.mp ha with ⟨e, he, rfl⟩
        rcases (mem_insertTab hs.2).mp he with he | ⟨he, _⟩
        · subst he; show k' < k; omega
        · exact hs.1 e.1 (List.mem_map_of_mem Prod.fst he)

theorem lookupTab_eq_some_of_mem {α : Type} {t : List (Nat × α)} (hs : SortedTab t)
    {k : Nat} {v : α} (h : (k, v) ∈ t) : lookupTab k t = some v := by
  induction t with
  | nil => simp at h
  | cons x rest ih =>
    obtain ⟨k', v'⟩ := x
    simp only [SortedTab, List.map_cons, List.pairwise_cons] at hs
    rcases List.mem_cons.mp h with h | h
    · cases h
      simp [lookupTab]
    · have hlt := hs.1 k (List.mem_map_of_mem Prod.fst h)
      simp only [lookupTab, if_neg (by omega : ¬ k' = k)]
      exact ih hs.2 h

theorem mem_of_lookupTab_eq_some {α : Type} {t : List (Nat × α)}
    {k : Nat} {v : α} (h : lookupTab k t = some v) : (k, v) ∈ t := by
  induction t with
  | nil => simp [lookupTab] at h
  | cons x rest ih =>
    obtain ⟨k', v'⟩ := x
    simp only [lookupTab] at h
    split at h
    · next heq =>
      subst heq
      injection h with h
      subst h
      exact List.mem_cons_self _ _
    · exact List.mem_cons_of_mem _ (ih h)

/-- In a key-sorted table, every entry's key is at most the key of the
last entry. -/
theorem key_le_getLast {α : Type} :
    ∀ {m : List (Nat × α)}, SortedTab m → ∀ {last : Nat × α},
      m.getLast? = some last → ∀ e ∈ m, e.1 ≤ last.1 := by
  intro m
  induction m with
  | nil => intro _ last hl; simp at hl
  | cons x rest ih =>
    intro hs last hl e he
    cases rest with
    | nil =>
      simp only [List.getLast?_singleton, Option.some.injEq] at hl
      subst hl
      simp only [List.mem_singleton] at he
      subst he
      exact le_refl _
    | cons y rest' =>
      rw [List.getLast?_cons_cons] at hl
      simp only [SortedTab, List.map_cons, List.pairwise_cons] at hs
      have hs' : SortedTab (y :: rest') := by
        simp only [SortedTab, List.map_cons, List.pairwise_cons]
        exact hs.2
      have hlast : last ∈ y :: rest' := by
        obtain ⟨hne, heq⟩ := List.mem_getLast?_eq_getLast (x := last) hl
        rw [heq]
        exact List.getLast_mem hne
      rcases List.mem_cons.mp he with he | he
      · subst he
        have := hs.1 last.1 (List.mem_map_of_mem Prod.fst hlast)
        omega
      · exact ih hs' hl e he

/-! ## The application state and the mutation protocols -/

/-- The persistent state reachable from the modelled handlers: the
`posts` and `threads` trees and the id allocator. -/
structure AppDb where
  posts : List (Nat × Post)
  threads : List (Nat × Thread)
  hk : HighestKeys
deriving Repr

/-- Handler `thread_post` in `src/bin/main.rs` (`ThreadCreate`): allocate a
thread key and a post key, insert the root post (parent `none`, no
children, thread = the new thread key), then insert the thread record
pointing at that root post.  `clean` is the sanitizer collaborator. -/
def threadPost (clean : String → String) (db : AppDb) (author : Nat)
    (title body : String) : AppDb × Nat × Nat :=
  let threadKey := (db.hk.next .threads).1
  let hk1 := (db.hk.next .threads).2
  let postKey := (hk1.next .posts).1
  let hk2 := (hk1.next .posts).2
  let post : Post :=
    { key := postKey, body := clean body, author := author,
      parent := none, children := [], thread := threadKey }
  let posts1 := insertTab postKey post db.posts
  let thread : Thread := { key := threadKey, title := clean title, post := postKey }
  let threads1 := insertTab threadKey thread db.threads
  ({ posts := posts1, threads := threads1, hk := hk2 }, threadKey, postKey)

/-- What a successful `post_post` reports: the new post's key, the
chosen parent key, and the canonical thread key re-read from the
parent. -/
structure ReplyOk where
  key : Nat
  parentKey : Nat
  threadKey : Nat
deriving DecidableEq, Repr

/-- Handler `post_post` in `src/bin/main.rs` (`Reply`): allocate a key first;
find the last stored post (in key order) whose `thread` equals the
requested key, failing with `ThreadHasNoPosts` when there is none;
re-read the parent and take its `thread` field as the canonical thread
key; insert the new post; re-read the parent, push the new key onto its
children and insert it back. -/
def postPost (clean : String → String) (db : AppDb) (author : Nat)
    (threadKey : Nat) (body : String) : Except Err ReplyOk × AppDb :=
  let key := (db.hk.next .posts).1
  let hk' := (db.hk.next .posts).2
  match ((db.posts.map Prod.snd).filter (fun p => p.thread = threadKey)).getLast? with
  | none => (.error (.threadHasNoPosts threadKey), { db with hk := hk' })
  | some lastPost =>
    let parentKey := lastPost.key
    match lookupTab parentKey db.posts with
    | none => (.error (.postNotFound parentKey), { db with hk := hk' })
    | some parent0 =>
      let canonKey := parent0.thread
      let newPost : Post :=
        { key := key, body := clean body, author := author,
          parent := some parentKey, children := [], thread := canonKey }
      let posts1 := insertTab key newPost db.posts
      match lookupTab parentKey posts1 with
      | none => (.error (.postNotFound parentKey), { db with posts := posts1, hk := hk' })
      | some parent1 =>
        let posts2 :=
          insertTab parentKey { parent1 with children := parent1.children ++ [key] } posts1
        (.ok ⟨key, parentKey, canonKey⟩, { db with posts := posts2, hk := hk' })

/-- Every table entry stores a record whose `key` field is its table
key (all writers in `src/bin/main.rs` maintain this). -/
def KeyedTab (t : List (Nat × Post)) : Prop :=
  ∀ e ∈ t, (e : Nat × Post).2.key = e.1

instance (t : List (Nat × Post)) : Decidable (KeyedTab t) := by
  unfold KeyedTab
  infer_instance

theorem mem_of_getLast?_eq_some {α : Type} {l : List α} {a : α}
    (h : l.getLast? = some a) : a ∈ l := by
  obtain ⟨hne, heq⟩ := List.mem_getLast?_eq_getLast (x := a) h
  rw [heq]
  exact List.getLast_mem hne

/-- Filtering the values of a table is filtering its entries. -/
theorem filter_map_snd {α : Type} (q : α → Bool) (l : List (Nat × α)) :
    (l.map Prod.snd).filter q = (l.filter (fun e => q e.2)).map Prod.snd := by
  induction l with
  | nil => rfl
  | cons x rest ih =>
    by_cases h : q x.2
    · simp [List.filter_cons, h, ih]
    · simp [List.filter_cons, h, ih]

theorem sortedTab_filter {α : Type} (q : Nat × α → Bool) {t : List (Nat × α)}
    (hs : SortedTab t) : SortedTab (t.filter q) :=
  hs.sublist ((List.filter_sublist t).map Prod.fst)

/-- Evaluation of `postPost` when no stored post matches the requested
thread: the id is allocated, then the reply fails. -/
theorem postPost_no_match (clean : String → String) (db : AppDb)
    (author threadKey : Nat) (body : String)
    (h : ((db.posts.map Prod.snd).filter
        (fun p => p.thread = threadKey)).getLast? = none) :
    postPost clean db author threadKey body =
      (.error (.threadHasNoPosts threadKey), { db with hk := (db.hk.next .posts).2 }) := by
  simp only [postPost, h]

/-- Evaluation of `postPost` when the last matching post is `p` and the
table stores `q` under `p.key`: the reply succeeds and reports the
allocated key, `p.key` as parent, and `q.thread` as the canonical
thread key. -/
theorem postPost_match (clean : String → String) (db : AppDb)
    (author threadKey : Nat) (body : String) {p q : Post}
    (h : ((db.posts.map Prod.snd).filter
        (fun p => p.thread = threadKey)).getLast? = some p)
    (hq : lookupTab p.key db.posts = some q) :
    (postPost clean db author threadKey body).1 =
      .ok ⟨(db.hk.next .posts).1, p.key, q.thread⟩ := by
  by_cases hkey : (db.hk.next .posts).1 = p.key
  · have hq' : lookupTab (db.hk.next TableType.posts).1 db.posts = some q := by
      rw [hkey]; exact hq
    simp only [postPost, h, ← hkey, hq', lookupTab_insertTab_self]
  · simp only [postPost, h, hq,
      lookupTab_insertTab_ne (fun hh => hkey hh.symm), hq]

/-- A small concrete database used to instantiate the hypotheses of the
theorems below: one thread (key 5) holding a root post (key 0) and one
reply (key 1). -/
def dbExample : AppDb where
  posts :=
    [(0, { key := 0, body := "root", author := 3, parent := none,
           children := [1], thread := 5 }),
     (1, { key := 1, body := "first reply", author := 3, parent := some 0,
           children := [], thread := 5 })]
  threads := [(5, { key := 5, title := "hello", post := 0 })]
  hk := { posts := some 2, users := some 4, highestKeys := none, threads := some 6 }

/-- Claim C4: `Reply(author, thread_key, body)` fails with
`ThreadHasNoPosts(thread_key)` exactly when no stored post has
`thread = thread_key`; when at least one such post exists the reply
succeeds, the chosen parent is the stored post with the greatest key
among those whose `thread` equals `thread_key`, and the canonical
thread key of the new post is re-read from that parent's `thread`
field. -/
theorem reply_parent_selection (clean : String → String) (db : AppDb)
    (author threadKey : Nat) (body : String)
    (hs : SortedTab db.posts) (hw : KeyedTab db.posts) :
    ((postPost clean db author threadKey body).1
        = .error (.threadHasNoPosts threadKey) ↔
      ∀ e ∈ db.posts, (e : Nat × Post).2.thread ≠ threadKey) ∧
    ((∃ e ∈ db.posts, (e : Nat × Post).2.thread = threadKey) →
      ∃ r p, (postPost clean db author threadKey body).1 = .ok r ∧
        lookupTab r.parentKey db.posts = some p ∧ p.thread = threadKey ∧
        (∀ e ∈ db.posts, (e : Nat × Post).2.thread = threadKey → e.1 ≤ r.parentKey) ∧
        r.threadKey = p.thread) := by
  have hcomm := filter_map_snd (fun p : Post => decide (p.thread = threadKey)) db.posts
  by_cases hF : db.posts.filter (fun e => decide (e.2.thread = threadKey)) = []
  · have hnone : ((db.posts.map Prod.snd).filter
        (fun p => p.thread = threadKey)).getLast? = none := by
      rw [hcomm, hF]
      rfl
    have heval := postPost_no_match clean db author threadKey body hnone
    have hempty : ∀ e ∈ db.posts, (e : Nat × Post).2.thread ≠ threadKey := by
      have := List.filter_eq_nil_iff.mp hF
      intro e he
      have := this e he
      simpa using this
    constructor
    · rw [heval]
      simpa using hempty
    · rintro ⟨e, he, ht⟩
      exact absurd ht (hempty e he)
  · obtain ⟨last, hlastF⟩ :
        ∃ last, (db.posts.filter (fun e => decide (e.2.thread = threadKey))).getLast?
          = some last := by
      rcases Option.eq_none_or_eq_some
          ((db.posts.filter (fun e => decide (e.2.thread = threadKey))).getLast?) with
        h | ⟨a, h⟩
      · exact absurd (List.getLast?_eq_none_iff.mp h) hF
      · exact ⟨a, h⟩
    have hsome : ((db.posts.map Prod.snd).filter
        (fun p => p.thread = threadKey)).getLast? = some last.2 := by
      rw [hcomm, List.getLast?_map, hlastF]
      rfl
    have hmemF := mem_of_getLast?_eq_some hlastF
    have hmem : last ∈ db.posts := List.mem_of_mem_filter hmemF
    have hthread : last.2.thread = threadKey := by
      have := List.of_mem_filter hmemF
      simpa using this
    have hkeyf : last.2.key = last.1 := hw last hmem
    have hlook : lookupTab last.2.key db.posts = some last.2 := by
      rw [hkeyf]
      exact lookupTab_eq_some_of_mem hs (by simpa using hmem)
    have heval := postPost_match clean db author threadKey body hsome hlook
    constructor
    · rw [heval]
      constructor
      · intro h
        exact absurd h (by simp)
      · intro h
        exact absurd hthread (h last hmem)
    · intro _
      refine ⟨⟨(db.hk.next .posts).1, last.2.key, last.2.thread⟩, last.2, heval,
        hlook, hthread, ?_, rfl⟩
      intro e he ht
      have heF : e ∈ db.posts.filter (fun e => decide (e.2.thread = threadKey)) :=
        List.mem_filter.mpr ⟨he, by simpa using ht⟩
      have := key_le_getLast (sortedTab_filter _ hs) hlastF e heF
      simpa [hkeyf] using this

/-- Witness for `reply_parent_selection` on `dbExample`, thread key 5. -/
theorem reply_parent_selection_witness :
    SortedTab dbExample.posts ∧ KeyedTab dbExample.posts ∧
      ((postPost id dbExample 3 5 "another").1
          = .error (.threadHasNoPosts 5) ↔
        ∀ e ∈ dbExample.posts, (e : Nat × Post).2.thread ≠ 5) :=
  ⟨by decide, by decide,
    (reply_parent_selection id dbExample 3 5 "another" (by decide) (by decide)).1⟩

/-- Claim C9: when `Reply` fails with `ThreadHasNoPosts(thread_key)`,
the posts table (and everything else in the store) is unchanged, but
the `Posts` entry of the highest-keys counter has already been bumped
to `current+1`: the id allocated at the start of the handler is
consumed without ever being assigned to a stored post, so the failure
is not atomic over allocator state. -/
theorem reply_failure_increments_allocator (clean : String → String) (db : AppDb)
    (author threadKey : Nat) (body : String)
    (hempty : ∀ e ∈ db.posts, (e : Nat × Post).2.thread ≠ threadKey) :
    (postPost clean db author threadKey body).1
        = .error (.threadHasNoPosts threadKey) ∧
    (postPost clean db author threadKey body).2.posts = db.posts ∧
    (postPost clean db author threadKey body).2.threads = db.threads ∧
    (postPost clean db author threadKey body).2.hk.get .posts
        = some (((db.hk.get .posts).getD 0 + 1) % 2 ^ 64) := by
  have hcomm := filter_map_snd (fun p : Post => decide (p.thread = threadKey)) db.posts
  have hF : db.posts.filter (fun e => decide (e.2.thread = threadKey)) = [] := by
    rw [List.filter_eq_nil_iff]
    intro e he
    simpa using hempty e he
  have hnone : ((db.posts.map Prod.snd).filter
      (fun p => p.thread = threadKey)).getLast? = none := by
    rw [hcomm, hF]
    rfl
  rw [postPost_no_match clean db author threadKey body hnone]
  refine ⟨rfl, rfl, rfl, ?_⟩
  exact HighestKeys.next_stores db.hk .posts

/-- Witness for `reply_failure_increments_allocator`: replying into the
empty thread key 9 of `dbExample`. -/
theorem reply_failure_increments_allocator_witness :
    (∀ e ∈ dbExample.posts, (e : Nat × Post).2.thread ≠ 9) ∧
      (postPost id dbExample 3 9 "into the void").1
        = .error (.threadHasNoPosts 9) ∧
      (postPost id dbExample 3 9 "into the void").2.posts = dbExample.posts :=
  ⟨by decide,
    (reply_failure_increments_allocator id dbExample 3 9 "into the void"
      (by decide)).1,
    (reply_failure_increments_allocator id dbExample 3 9 "into the void"
      (by decide)).2.1⟩

/-- Full evaluation of a successful `postPost` when the allocated key
is fresh: the new post is inserted, then the parent is re-read and
written back with the new key appended to its children. -/
theorem postPost_match_state (clean : String → String) (db : AppDb)
    (author threadKey : Nat) (body : String) {p q : Post}
    (h : ((db.posts.map Prod.snd).filter
        (fun p => p.thread = threadKey)).getLast? = some p)
    (hq : lookupTab p.key db.posts = some q)
    (hne : (db.hk.next .posts).1 ≠ p.key) :
    postPost clean db author threadKey body =
      (.ok ⟨(db.hk.next .posts).1, p.key, q.thread⟩,
        { db with
            posts := insertTab p.key
              { q with children := q.children ++ [(db.hk.next .posts).1] }
              (insertTab (db.hk.next .posts).1
                { key := (db.hk.next .posts).1, body := clean body,
                  author := author, parent := some p.key, children := [],
                  thread := q.thread }
                db.posts),
            hk := (db.hk.next .posts).2 }) := by
  simp only [postPost, h, hq, lookupTab_insertTab_ne (fun hh => hne hh.symm)]

/-- Claim C5: after a successful `Reply`, the new post has
`parent = some parentKey`, no children, and the parent's `thread`; the
parent is re-stored with the new key appended to its children list
(removing none); and the parent/child invariant — every stored post
with a parent has a stored parent in the same thread — is preserved. -/
theorem reply_maintains_parent_child (clean : String → String) (db : AppDb)
    (author threadKey : Nat) (body : String)
    (hs : SortedTab db.posts) (hw : KeyedTab db.posts)
    (hfresh : ∀ e ∈ db.posts, (e : Nat × Post).1 ≠ (db.hk.next .posts).1)
    (hinv : ∀ e ∈ db.posts, ∀ rk, (e : Nat × Post).2.parent = some rk →
      ∃ q, lookupTab rk db.posts = some q ∧ q.thread = (e : Nat × Post).2.thread)
    (r : ReplyOk) (hok : (postPost clean db author threadKey body).1 = .ok r) :
    (∃ pnew,
      lookupTab r.key (postPost clean db author threadKey body).2.posts = some pnew ∧
      pnew.parent = some r.parentKey ∧ pnew.children = [] ∧
      ∃ parentOld, lookupTab r.parentKey db.posts = some parentOld ∧
        pnew.thread = parentOld.thread ∧
        lookupTab r.parentKey (postPost clean db author threadKey body).2.posts
          = some { parentOld with children := parentOld.children ++ [r.key] }) ∧
    (∀ e ∈ (postPost clean db author threadKey body).2.posts, ∀ rk,
      (e : Nat × Post).2.parent = some rk →
      ∃ q, lookupTab rk (postPost clean db author threadKey body).2.posts = some q ∧
        q.thread = (e : Nat × Post).2.thread) := by
  have hcomm := filter_map_snd (fun p : Post => decide (p.thread = threadKey)) db.posts
  by_cases hF : db.posts.filter (fun e => decide (e.2.thread = threadKey)) = []
  · exfalso
    have hnone : ((db.posts.map Prod.snd).filter
        (fun p => p.thread = threadKey)).getLast? = none := by
      rw [hcomm, hF]
      rfl
    rw [postPost_no_match clean db author threadKey body hnone] at hok
    simp at hok
  · obtain ⟨last, hlastF⟩ :
        ∃ last, (db.posts.filter (fun e => decide (e.2.thread = threadKey))).getLast?
          = some last := by
      rcases Option.eq_none_or_eq_some
          ((db.posts.filter (fun e => decide (e.2.thread = threadKey))).getLast?) with
        h | ⟨a, h⟩
      · exact absurd (List.getLast?_eq_none_iff.mp h) hF
      · exact ⟨a, h⟩
    have hsome : ((db.posts.map Prod.snd).filter
        (fun p => p.thread = threadKey)).getLast? = some last.2 := by
      rw [hcomm, List.getLast?_map, hlastF]
      rfl
    have hmem : last ∈ db.posts := List.mem_of_mem_filter (mem_of_getLast?_eq_some hlastF)
    have hkeyf : last.2.key = last.1 := hw last hmem
    have hlook : lookupTab last.2.key db.posts = some last.2 := by
      rw [hkeyf]
      exact lookupTab_eq_some_of_mem hs (by simpa using hmem)
    have hne : (db.hk.next .posts).1 ≠ last.2.key := by
      rw [hkeyf]
      exact fun h => hfresh last hmem h.symm
    have heval := postPost_match_state clean db author threadKey body hsome hlook hne
    rw [heval] at hok
    obtain rfl : (⟨(db.hk.next .posts).1, last.2.key, last.2.thread⟩ : ReplyOk) = r := by
      injection hok
    rw [heval]
    set key := (db.hk.next .posts).1 with hkeydef
    set newPost : Post :=
      { key := key, body := clean body, author := author,
        parent := some last.2.key, children := [], thread := last.2.thread }
      with hnewdef
    set parent1 : Post := { last.2 with children := last.2.children ++ [key] }
      with hpardef
    have hs1 : SortedTab (insertTab key newPost db.posts) := insertTab_sorted hs key newPost
    have hlookT2new : lookupTab key (insertTab last.2.key parent1
        (insertTab key newPost db.posts)) = some newPost := by
      rw [lookupTab_insertTab_ne hne, lookupTab_insertTab_self]
    have hlookT2par : lookupTab last.2.key (insertTab last.2.key parent1
        (insertTab key newPost db.posts)) = some parent1 :=
      lookupTab_insertTab_self _ _ _
    have hpres : ∀ rk qq, lookupTab rk db.posts = some qq →
        ∃ qq', lookupTab rk (insertTab last.2.key parent1
            (insertTab key newPost db.posts)) = some qq' ∧ qq'.thread = qq.thread := by
      intro rk qq hqq
      by_cases h1 : rk = last.2.key
      · subst h1
        obtain rfl : qq = last.2 := by
          rw [hlook] at hqq
          injection hqq with h
          exact h.symm
        exact ⟨parent1, hlookT2par, rfl⟩
      · by_cases h2 : rk = key
        · exact absurd (h2 ▸ rfl : (rk, qq).1 = key)
            (hfresh (rk, qq) (mem_of_lookupTab_eq_some hqq))
        · refine ⟨qq, ?_, rfl⟩
          rw [lookupTab_insertTab_ne h1, lookupTab_insertTab_ne h2]
          exact hqq
    constructor
    · exact ⟨newPost, hlookT2new, rfl, rfl, last.2, hlook, rfl, hlookT2par⟩
    · intro e he rk hpar
      rcases (mem_insertTab hs1).mp he with he | ⟨he, hne1⟩
      · subst he
        have hlp : last.2.parent = some rk := hpar
        obtain ⟨qq, hqq, hth⟩ := hinv last hmem rk hlp
        obtain ⟨qq', hq', ht'⟩ := hpres rk qq hqq
        exact ⟨qq', hq', by rw [ht', hth]⟩
      · rcases (mem_insertTab hs).mp he with he | ⟨he, hne2⟩
        · subst he
          obtain rfl : last.2.key = rk := by injection hpar
          exact ⟨parent1, hlookT2par, rfl⟩
        · obtain ⟨qq, hqq, hth⟩ := hinv e he rk hpar
          obtain ⟨qq', hq', ht'⟩ := hpres rk qq hqq
          exact ⟨qq', hq', by rw [ht', hth]⟩

/-- Witness for `reply_maintains_parent_child` on `dbExample`: the
reply allocates key 2 under parent 1 in thread 5. -/
theorem reply_maintains_parent_child_witness :
    SortedTab dbExample.posts ∧ KeyedTab dbExample.posts ∧
      (postPost id dbExample 3 5 "again").1 = .ok ⟨2, 1, 5⟩ ∧
      (∃ pnew,
        lookupTab (2 : Nat) (postPost id dbExample 3 5 "again").2.posts = some pnew ∧
        pnew.parent = some 1 ∧ pnew.children = [] ∧
        ∃ parentOld, lookupTab (1 : Nat) dbExample.posts = some parentOld ∧
          pnew.thread = parentOld.thread ∧
          lookupTab (1 : Nat) (postPost id dbExample 3 5 "again").2.posts
            = some { parentOld with children := parentOld.children ++ [2] }) := by
  refine ⟨by decide, by decide, by rfl, ?_⟩
  have := reply_maintains_parent_child id dbExample 3 5 "again"
    (by decide) (by decide) (by decide) (by decide) ⟨2, 1, 5⟩ (by rfl)
  exact this.1

/-- Shape of any successful `postPost`: the parent was looked up in the
pre-state, the new post carries `parent = some parentKey` and the
parent's thread, and the parent is re-stored with the new key appended
to its children. -/
theorem postPost_success_analysis (clean : String → String) (db : AppDb)
    (author threadKey : Nat) (body : String)
    (hs : SortedTab db.posts) (hw : KeyedTab db.posts)
    (hfresh : ∀ e ∈ db.posts, (e : Nat × Post).1 ≠ (db.hk.next .posts).1)
    {r : ReplyOk} (hok : (postPost clean db author threadKey body).1 = .ok r) :
    r.key = (db.hk.next .posts).1 ∧
    ∃ pOld, lookupTab r.parentKey db.posts = some pOld ∧
      pOld.thread = threadKey ∧
      postPost clean db author threadKey body =
        (.ok r,
          { db with
              posts := insertTab r.parentKey
                { pOld with children := pOld.children ++ [r.key] }
                (insertTab r.key
                  { key := r.key, body := clean body, author := author,
                    parent := some r.parentKey, children := [],
                    thread := pOld.thread } db.posts),
              hk := (db.hk.next .posts).2 }) ∧
      r.parentKey ≠ r.key := by
  have hcomm := filter_map_snd (fun p : Post => decide (p.thread = threadKey)) db.posts
  by_cases hF : db.posts.filter (fun e => decide (e.2.thread = threadKey)) = []
  · exfalso
    have hnone : ((db.posts.map Prod.snd).filter
        (fun p => p.thread = threadKey)).getLast? = none := by
      rw [hcomm, hF]
      rfl
    rw [postPost_no_match clean db author threadKey body hnone] at hok
    simp at hok
  · obtain ⟨last, hlastF⟩ :
        ∃ last, (db.posts.filter (fun e => decide (e.2.thread = threadKey))).getLast?
          = some last := by
      rcases Option.eq_none_or_eq_some
          ((db.posts.filter (fun e => decide (e.2.thread = threadKey))).getLast?) with
        h | ⟨a, h⟩
      · exact absurd (List.getLast?_eq_none_iff.mp h) hF
      · exact ⟨a, h⟩
    have hsome : ((db.posts.map Prod.snd).filter
        (fun p => p.thread = threadKey)).getLast? = some last.2 := by
      rw [hcomm, List.getLast?_map, hlastF]
      rfl
    have hmemF := mem_of_getLast?_eq_some hlastF
    have hmem : last ∈ db.posts := List.mem_of_mem_filter hmemF
    have hthread : last.2.thread = threadKey := by
      have := List.of_mem_filter hmemF
      simpa using this
    have hkeyf : last.2.key = last.1 := hw last hmem
    have hlook : lookupTab last.2.key db.posts = some last.2 := by
      rw [hkeyf]
      exact lookupTab_eq_some_of_mem hs (by simpa using hmem)
    have hne : (db.hk.next .posts).1 ≠ last.2.key := by
      rw [hkeyf]
      exact fun h => hfresh last hmem h.symm
    have heval := postPost_match_state clean db author threadKey body hsome hlook hne
    rw [heval] at hok
    obtain rfl : (⟨(db.hk.next .posts).1, last.2.key, last.2.thread⟩ : ReplyOk) = r := by
      injection hok
    exact ⟨rfl, last.2, hlook, hthread, heval, fun h => hne h.symm⟩

/-- Invariant (spec §8, invariant 2): every stored thread's root post
exists, has no parent, and belongs to that thread. -/
def RootInv (db : AppDb) : Prop :=
  ∀ e ∈ db.threads, ∃ p,
    lookupTab (e : Nat × Thread).2.post db.posts = some p ∧
    p.parent = none ∧ p.thread = (e : Nat × Thread).2.key

/-- Claim C6: `ThreadCreate` inserts a root post with `parent = none`,
empty children and `thread = thread_key`, and a thread record whose
`post` field is that root's key, establishing the invariant that every
thread's root post has no parent and carries the thread's key; and
`Reply` preserves the invariant, its newly created post never having
`parent = none`. -/
theorem thread_root_invariant (clean : String → String) (db : AppDb)
    (author : Nat) (title body : String) (threadKey : Nat) (rbody : String)
    (hsP : SortedTab db.posts) (hsT : SortedTab db.threads)
    (hw : KeyedTab db.posts) (hinv : RootInv db)
    (hfreshT : ∀ e ∈ db.posts,
      (e : Nat × Post).1 ≠ ((db.hk.next .threads).2.next .posts).1)
    (hfreshR : ∀ e ∈ db.posts, (e : Nat × Post).1 ≠ (db.hk.next .posts).1) :
    (RootInv (threadPost clean db author title body).1 ∧
      lookupTab (threadPost clean db author title body).2.1
          (threadPost clean db author title body).1.threads
        = some { key := (threadPost clean db author title body).2.1,
                 title := clean title,
                 post := (threadPost clean db author title body).2.2 } ∧
      lookupTab (threadPost clean db author title body).2.2
          (threadPost clean db author title body).1.posts
        = some { key := (threadPost clean db author title body).2.2,
                 body := clean body, author := author, parent := none,
                 children := [],
                 thread := (threadPost clean db author title body).2.1 }) ∧
    (∀ r : ReplyOk, (postPost clean db author threadKey rbody).1 = .ok r →
      RootInv (postPost clean db author threadKey rbody).2 ∧
      ∃ pnew, lookupTab r.key (postPost clean db author threadKey rbody).2.posts
          = some pnew ∧ pnew.parent = some r.parentKey ∧ pnew.parent ≠ none) := by
  constructor
  · have heval : threadPost clean db author title body =
        ({ posts := insertTab ((db.hk.next .threads).2.next .posts).1
             { key := ((db.hk.next .threads).2.next .posts).1,
               body := clean body, author := author, parent := none,
               children := [], thread := (db.hk.next .threads).1 } db.posts,
           threads := insertTab (db.hk.next .threads).1
             { key := (db.hk.next .threads).1, title := clean title,
               post := ((db.hk.next .threads).2.next .posts).1 } db.threads,
           hk := ((db.hk.next .threads).2.next .posts).2 },
         (db.hk.next .threads).1, ((db.hk.next .threads).2.next .posts).1) := rfl
    rw [heval]
    refine ⟨?_, lookupTab_insertTab_self _ _ _, lookupTab_insertTab_self _ _ _⟩
    intro e he
    rcases (mem_insertTab hsT).mp he with he | ⟨he, hne⟩
    · subst he
      exact ⟨_, lookupTab_insertTab_self _ _ _, rfl, rfl⟩
    · obtain ⟨p, hp, hpar, hth⟩ := hinv e he
      refine ⟨p, ?_, hpar, hth⟩
      rw [lookupTab_insertTab_ne, hp]
      exact fun h => hfreshT (e.2.post, p) (mem_of_lookupTab_eq_some hp) h
  · intro r hok
    obtain ⟨hkey, pOld, hlook, hthread, heval, hnepar⟩ :=
      postPost_success_analysis clean db author threadKey rbody hsP hw hfreshR hok
    rw [heval]
    constructor
    · intro e he
      obtain ⟨p, hp, hpar, hth⟩ := hinv e he
      by_cases h1 : e.2.post = r.parentKey
      · refine ⟨{ pOld with children := pOld.children ++ [r.key] }, ?_, ?_, ?_⟩
        · rw [h1]
          exact lookupTab_insertTab_self _ _ _
        · show pOld.parent = none
          rw [h1] at hp
          rw [hlook] at hp
          injection hp with hp
          rw [hp]
          exact hpar
        · show pOld.thread = e.2.key
          rw [h1] at hp
          rw [hlook] at hp
          injection hp with hp
          rw [hp]
          exact hth
      · have h2 : e.2.post ≠ r.key := by
          intro h
          exact hfreshR (e.2.post, p) (mem_of_lookupTab_eq_some hp) (h.trans hkey)
        refine ⟨p, ?_, hpar, hth⟩
        show lookupTab e.2.post (insertTab r.parentKey _ (insertTab r.key _ db.posts))
          = some p
        rw [lookupTab_insertTab_ne h1, lookupTab_insertTab_ne h2]
        exact hp
    · refine ⟨({ key := r.key, body := clean rbody, author := author,
                 parent := some r.parentKey, children := [],
                 thread := pOld.thread } : Post),
        ?_, rfl, by simp⟩
      rw [lookupTab_insertTab_ne (fun h => hnepar h.symm), lookupTab_insertTab_self]

/-- Witness for `thread_root_invariant` on `dbExample`. -/
theorem thread_root_invariant_witness :
    SortedTab dbExample.posts ∧ SortedTab dbExample.threads ∧
      KeyedTab dbExample.posts ∧ RootInv dbExample ∧
      RootInv (threadPost id dbExample 3 "second thread" "body").1 := by
  refine ⟨by decide, by decide, by decide, ?_, ?_⟩
  · intro e he
    fin_cases he
    exact ⟨_, rfl, rfl, rfl⟩
  · have := thread_root_invariant id dbExample 3 "second thread" "body" 5 "r"
      (by decide) (by decide) (by decide) ?_ (by decide) (by decide)
    · exact this.1.1
    · intro e he
      fin_cases he
      exact ⟨_, rfl, rfl, rfl⟩

/-! ## Authentication and the username index -/

/-- A user record as read by the auth backend (`User` in
`src/auth.rs`). -/
structure User where
  key : Nat
  username : String
  password : String
deriving DecidableEq, Repr

/-- Login credentials (`Credentials` in `src/auth.rs`). -/
structure Credentials where
  username : String
  password : String
deriving DecidableEq, Repr

/-- Errors surfaced by the modelled lookups: a failed
`BINCODE.deserialize`, or a failed join of the blocking verification
task (`Error::TokioJoin` in `src/error.rs`). -/
inductive LookupErr where
  | decodeFailed
  | tokioJoin
deriving DecidableEq, Repr

/-- Method `Backend::authenticate` in `src/auth.rs`: `ok_some!` on the
username-map lookup returns `none` early when the username is absent;
otherwise the password is verified against the stored hash on the
blocking pool — `.await?` propagates a join failure as an error — and
the user is returned exactly when verification succeeds.  `lookup`
models the username→user map, `verify` the
`password_auth::verify_password` collaborator, and `joinFails` whether
awaiting the blocking task fails. -/
def authenticate (lookup : String → Option User)
    (verify : String → String → Bool) (joinFails : Bool)
    (creds : Credentials) : Except LookupErr (Option User) :=
  match lookup creds.username with
  | none => .ok none
  | some user =>
    if joinFails then .error .tokioJoin
    else .ok (if verify creds.password user.password then some user else none)

/-- Claim C7: `authenticate` returns `none` when no user with the given
username exists; when such a user exists it returns that user exactly
when password verification against the stored hash succeeds and `none`
when verification fails; and a failure to join the blocking
verification task is propagated as an error rather than as `none`. -/
theorem authenticate_characterization (lookup : String → Option User)
    (verify : String → String → Bool) (joinFails : Bool) (creds : Credentials) :
    (authenticate lookup verify joinFails creds = .ok none ↔
      lookup creds.username = none ∨
        ∃ user, lookup creds.username = some user ∧ joinFails = false ∧
          verify creds.password user.password = false) ∧
    (∀ user, authenticate lookup verify joinFails creds = .ok (some user) ↔
      lookup creds.username = some user ∧ joinFails = false ∧
        verify creds.password user.password = true) ∧
    (authenticate lookup verify joinFails creds = .error .tokioJoin ↔
      (∃ user, lookup creds.username = some user) ∧ joinFails = true) := by
  unfold authenticate
  rcases hl : lookup creds.username with _ | user
  · refine ⟨by simp, fun user => ?_, by simp⟩
    simp
  · cases joinFails
    · rcases hv : verify creds.password user.password
      · simp [hv]
      · refine ⟨by simp [hv], fun u => ?_, by simp⟩
        constructor
        · intro h
          simp only [if_pos rfl, Option.some.injEq, if_true] at h
          rw [if_pos hv] at h
          injection h with h
          injection h with h
          exact ⟨h ▸ rfl, rfl, h ▸ hv⟩
        · rintro ⟨h1, _, _⟩
          injection h1 with h1
          subst h1
          simp [hv]
    · simp

/-- Witness for `authenticate_characterization` at a concrete user
map. -/
theorem authenticate_characterization_witness :
    authenticate
        (fun s => if s = "alice" then some ⟨1, "alice", "h2"⟩ else none)
        (fun pw st => pw == st) false ⟨"alice", "h2"⟩ = .ok (some ⟨1, "alice", "h2"⟩) :=
  ((authenticate_characterization
      (fun s => if s = "alice" then some ⟨1, "alice", "h2"⟩ else none)
      (fun pw st => pw == st) false ⟨"alice", "h2"⟩).2.1
    ⟨1, "alice", "h2"⟩).mpr ⟨by decide, rfl, by decide⟩

/-- Method `Users::get_by_username` in `src/state/user.rs`: `ok_some!` on the
`usernames` tree turns a missing username into `Ok(None)`; `ok_some!`
on the `users` tree turns a dangling user id into `Ok(None)`; the
stored bytes are then deserialized, a failure propagating as an
error. -/
def get_by_username (usernames : String → Option Nat)
    (users : Nat → Option (List Nat))
    (decodeUser : List Nat → Except LookupErr User)
    (name : String) : Except LookupErr (Option User) :=
  match usernames name with
  | none => .ok none
  | some key =>
    match users key with
    | none => .ok none
    | some bytes => (decodeUser bytes).map some

/-- Claim C8: `get_by_username(name)` reports not-found (`none`, not an
error) both when `name` is absent from the usernames index and when the
index maps `name` to a user id with no record in the users table; it
returns a user only when both lookups resolve, and that user is the
decoded record stored under the mapped id. -/
theorem get_by_username_characterization (usernames : String → Option Nat)
    (users : Nat → Option (List Nat))
    (decodeUser : List Nat → Except LookupErr User) (name : String) :
    (usernames name = none →
      get_by_username usernames users decodeUser name = .ok none) ∧
    (∀ k, usernames name = some k → users k = none →
      get_by_username usernames users decodeUser name = .ok none) ∧
    (∀ u, get_by_username usernames users decodeUser name = .ok (some u) ↔
      ∃ k bytes, usernames name = some k ∧ users k = some bytes ∧
        decodeUser bytes = .ok u) := by
  refine ⟨?_, ?_, ?_⟩
  · intro h
    simp [get_by_username, h]
  · intro k h1 h2
    simp [get_by_username, h1, h2]
  · intro u
    unfold get_by_username
    rcases h1 : usernames name with _ | k
    · simp
    · rcases h2 : users k with _ | bytes
      · simp [h2]
      · rcases h3 : decodeUser bytes with e | u'
        · simp [h2, h3, Except.map]
        · simp only [h2, h3, Except.map]
          constructor
          · intro h
            injection h with h
            injection h with h
            refine ⟨k, bytes, rfl, h2, ?_⟩
            rw [h3, h]
          · rintro ⟨k', bytes', hk, hb, hd⟩
            injection hk with hk
            subst hk
            rw [h2] at hb
            injection hb with hb
            subst hb
            rw [h3] at hd
            injection hd with hd
            rw [hd]

/-- Witness for `get_by_username_characterization`: a username mapped
to a dangling user id reports not-found. -/
theorem get_by_username_characterization_witness :
    get_by_username (fun s => if s = "bob" then some 2 else none)
        (fun _ => none) (fun _ => .error .decodeFailed) "bob" = .ok none :=
  (get_by_username_characterization (fun s => if s = "bob" then some 2 else none)
      (fun _ => none) (fun _ => .error .decodeFailed) "bob").2.1
    2 (by decide) rfl

/-! ## The thread-page traversal -/

/-- Weight of the not-yet-visited part of the posts table: one unit per
unvisited entry plus the length of its children list.  Each loop
iteration of the traversal strictly decreases
`stack.length + unvisitedWeight`. -/
def unvisitedWeight : List (Nat × Post) → List Nat → Nat
  | [], _ => 0
  | e :: rest, visited =>
    (if e.1 ∈ visited then 0 else 1 + e.2.children.length)
      + unvisitedWeight rest visited

/-- The post-collection loop of the `thread` handler in
`src/bin/main.rs`: pop a key from the stack, skip it when already
visited, otherwise record it in the visit order, look it up (a missing
post aborts with `PostNotFound`) and push its children.  The Rust loop
pops from the end of the `Vec` and extends it with the children in
order, modelled here by a head stack receiving the reversed children.
`none` models running out of `fuel`. -/
def collectPosts (posts : List (Nat × Post)) :
    Nat → List Nat → List Nat → List Nat → Option (Except Err (List Nat))
  | 0, _, _, _ => none
  | fuel + 1, visited, order, stack =>
    match stack with
    | [] => some (.ok order)
    | k :: rest =>
      if k ∈ visited then collectPosts posts fuel visited order rest
      else
        match lookupTab k posts with
        | none => some (.error (.postNotFound k))
        | some p =>
          collectPosts posts fuel (k :: visited) (order ++ [k])
            (p.children.reverse ++ rest)

theorem unvisitedWeight_cons_notin {posts : List (Nat × Post)} {k : Nat}
    {visited : List Nat} (h : k ∉ posts.map Prod.fst) :
    unvisitedWeight posts (k :: visited) = unvisitedWeight posts visited := by
  induction posts with
  | nil => rfl
  | cons e rest ih =>
    have hek : e.1 ≠ k := by
      intro hh
      exact h (by rw [← hh]; exact List.mem_map_of_mem Prod.fst (List.mem_cons_self _ _))
    have hrest : k ∉ rest.map Prod.fst := fun hh => h (List.mem_cons_of_mem _ hh)
    unfold unvisitedWeight
    by_cases hv : e.1 ∈ visited
    · rw [if_pos (List.mem_cons_of_mem _ hv), if_pos hv, ih hrest]
    · rw [if_neg (by simp [hek, hv] : ¬ e.1 ∈ k :: visited), if_neg hv, ih hrest]

/-- Visiting a stored, unvisited post removes exactly its weight. -/
theorem unvisitedWeight_visit {posts : List (Nat × Post)}
    (hnodup : (posts.map Prod.fst).Nodup) {k : Nat} {p : Post}
    {visited : List Nat} (hk : k ∉ visited) (hp : lookupTab k posts = some p) :
    unvisitedWeight posts (k :: visited) + (1 + p.children.length)
      = unvisitedWeight posts visited := by
  induction posts with
  | nil => simp [lookupTab] at hp
  | cons e rest ih =>
    simp only [List.map_cons, List.nodup_cons] at hnodup
    simp only [lookupTab] at hp
    unfold unvisitedWeight
    split at hp
    · next heq =>
      subst heq
      injection hp with hp
      subst hp
      rw [if_pos (List.mem_cons_self _ _), if_neg hk,
        unvisitedWeight_cons_notin hnodup.1]
      omega
    · next hne =>
      have hkk : e.1 ≠ k := hne
      have := ih hnodup.2 hp
      by_cases hv : e.1 ∈ visited
      · rw [if_pos (List.mem_cons_of_mem _ hv), if_pos hv]
        omega
      · rw [if_neg (by simp [hkk, hv] : ¬ e.1 ∈ k :: visited), if_neg hv]
        omega

/-- With fuel exceeding the loop measure, the traversal completes. -/
theorem collectPosts_fuel :
    ∀ (fuel : Nat) (posts : List (Nat × Post)) (visited order stack : List Nat),
      (posts.map Prod.fst).Nodup →
      stack.length + unvisitedWeight posts visited < fuel →
      collectPosts posts fuel visited order stack ≠ none := by
  intro fuel
  induction fuel with
  | zero => intro _ _ _ _ _ hlt; omega
  | succ fuel ih =>
    intro posts visited order stack hnodup hlt
    cases stack with
    | nil => simp [collectPosts]
    | cons k rest =>
      rw [show collectPosts posts (fuel + 1) visited order (k :: rest) =
          (if k ∈ visited then collectPosts posts fuel visited order rest
           else
             match lookupTab k posts with
             | none => some (.error (.postNotFound k))
             | some p =>
               collectPosts posts fuel (k :: visited) (order ++ [k])
                 (p.children.reverse ++ rest)) from rfl]
      by_cases hv : k ∈ visited
      · rw [if_pos hv]
        apply ih posts visited order rest hnodup
        simp only [List.length_cons] at hlt
        omega
      · rw [if_neg hv]
        cases hp : lookupTab k posts with
        | none => simp
        | some p =>
          apply ih posts (k :: visited) (order ++ [k])
            (p.children.reverse ++ rest) hnodup
          have hw := unvisitedWeight_visit hnodup hv hp
          simp only [List.length_append, List.length_reverse, List.length_cons] at hlt ⊢
          omega

/-- The visit order never repeats a key. -/
theorem collectPosts_nodup :
    ∀ (fuel : Nat) (posts : List (Nat × Post)) (visited order stack : List Nat),
      (∀ x ∈ order, x ∈ visited) → order.Nodup →
      ∀ out, collectPosts posts fuel visited order stack = some (.ok out) →
        out.Nodup := by
  intro fuel
  induction fuel with
  | zero => intro _ _ _ _ _ _ out h; simp [collectPosts] at h
  | succ fuel ih =>
    intro posts visited order stack hsub hnd out h
    cases stack with
    | nil =>
      rw [show collectPosts posts (fuel + 1) visited order [] = some (.ok order)
        from rfl] at h
      simp only [Option.some.injEq, Except.ok.injEq] at h
      subst h
      exact hnd
    | cons k rest =>
      rw [show collectPosts posts (fuel + 1) visited order (k :: rest) =
          (if k ∈ visited then collectPosts posts fuel visited order rest
           else
             match lookupTab k posts with
             | none => some (.error (.postNotFound k))
             | some p =>
               collectPosts posts fuel (k :: visited) (order ++ [k])
                 (p.children.reverse ++ rest)) from rfl] at h
      by_cases hv : k ∈ visited
      · rw [if_pos hv] at h
        exact ih posts visited order rest hsub hnd out h
      · rw [if_neg hv] at h
        cases hp : lookupTab k posts with
        | none => rw [hp] at h; simp at h
        | some p =>
          rw [hp] at h
          refine ih posts (k :: visited) (order ++ [k])
            (p.children.reverse ++ rest) ?_ ?_ out h
          · intro x hx
            rcases List.mem_append.mp hx with hx | hx
            · exact List.mem_cons_of_mem _ (hsub x hx)
            · simp only [List.mem_singleton] at hx
              subst hx
              exact List.mem_cons_self _ _
          · rw [List.nodup_append]
            refine ⟨hnd, List.nodup_singleton k, ?_⟩
            intro x hx hx'
            simp only [List.mem_singleton] at hx'
            subst hx'
            exact hv (hsub x hx)

/-- Claim C10: the thread-page traversal that follows children lists
from a root terminates for every finite posts table — including tables
whose parent/children edges form a cycle or share a child — because it
skips keys already in the visited set; consequently each post key
appears at most once in the rendered order. -/
theorem thread_traversal_terminates (posts : List (Nat × Post)) (root : Nat)
    (hnodup : (posts.map Prod.fst).Nodup) :
    collectPosts posts (2 + unvisitedWeight posts []) [] [] [root] ≠ none ∧
    ∀ out, collectPosts posts (2 + unvisitedWeight posts []) [] [] [root]
        = some (.ok out) → out.Nodup := by
  constructor
  · apply collectPosts_fuel _ posts [] [] [root] hnodup
    simp only [List.length_singleton]
    omega
  · intro out h
    exact collectPosts_nodup _ posts [] [] [root] (by simp) List.nodup_nil out h

/-- A two-post cycle: each post lists the other as its child. -/
def cyclicPosts : List (Nat × Post) :=
  [(0, { key := 0, body := "a", author := 0, parent := some 1,
         children := [1], thread := 0 }),
   (1, { key := 1, body := "b", author := 0, parent := some 0,
         children := [0], thread := 0 })]

/-- Witness for `thread_traversal_terminates` on a cyclic table. -/
theorem thread_traversal_terminates_witness :
    (cyclicPosts.map Prod.fst).Nodup ∧
      collectPosts cyclicPosts (2 + unvisitedWeight cyclicPosts []) [] [] [0] ≠ none :=
  ⟨by decide, (thread_traversal_terminates cyclicPosts 0 (by decide)).1⟩

/-! ## The Posts v1→v2 migration (`src/bin/migrate.rs`) -/

/-- A version-1 post row (`Post1` in `src/bin/migrate.rs`). -/
structure Post1 where
  key : Nat
  body : String
  author : Nat
deriving DecidableEq, Repr

/-- A version-2 post row (`Post2` in `src/bin/migrate.rs`). -/
structure Post2 where
  key : Nat
  body : String
  author : Nat
  parent : Option Nat
  children : List Nat
deriving DecidableEq, Repr

/-- The `tuple_windows` iterator of `itertools` over three elements. -/
def windows3 : List Nat → List (Nat × Nat × Nat)
  | a :: b :: c :: rest => (a, b, c) :: windows3 (b :: c :: rest)
  | _ => []

/-- The `(parent, child)` derivation inside `migrate_post1`: the first
3-window of the key sequence whose middle element is this post's key
yields `(some prev, some next)`; otherwise `(none, none)`. -/
def post1ParentChild (keys : List Nat) (k : Nat) : Option Nat × Option Nat :=
  (((windows3 keys).filterMap
      (fun w => if w.2.1 = k then some (some w.1, some w.2.2) else none)).head?).getD
    (none, none)

/-- The state `migrate_post1` mutates besides the row itself: the
`threads` tree and the id allocator. -/
structure MigrateState where
  threads : List (Nat × Thread)
  hk : HighestKeys
deriving Repr

/-- Transform `migrate_post1` in `src/bin/migrate.rs`: derive `(parent, child)`
from the key windows; when the derived parent is `none`, allocate a new
`Thread` (empty title) rooted at this post; return the `Post2` with the
derived parent and the child collected into the children list. -/
def migratePost1 (keys : List Nat) (st : MigrateState) (post : Post1) :
    Post2 × MigrateState :=
  let pc := post1ParentChild keys post.key
  let st' :=
    if pc.1 = none then
      { threads := insertTab (st.hk.next .threads).1
          { key := (st.hk.next .threads).1, title := "", post := post.key }
          st.threads,
        hk := (st.hk.next .threads).2 }
    else st
  ({ key := post.key, body := post.body, author := post.author,
     parent := pc.1, children := pc.2.toList }, st')

/-- The per-row loop of the `migrate_up_to!` macro for the v1→v2 pass:
every row is decoded, migrated against the (unchanged) key sequence,
and written back in place. -/
def migratePost1Go (keys : List Nat) :
    List (Nat × Post1) → MigrateState → List (Nat × Post2) × MigrateState
  | [], s => ([], s)
  | (k, p) :: rest, s =>
    let r := migratePost1 keys s p
    let rr := migratePost1Go keys rest r.2
    ((k, r.1) :: rr.1, rr.2)

/-- The whole v1→v2 pass over a `Posts` table at version 1. -/
def migratePost1Table (rows : List (Nat × Post1)) (st : MigrateState) :
    List (Nat × Post2) × MigrateState :=
  migratePost1Go (rows.map Prod.fst) rows st

/-- Claim C2, evaluation at the failing input: a version-1 `Posts`
table of two rows in key order.  The derivation uses 3-windows of the
key sequence, and a two-row table has none, so *both* posts come out
with `parent = none` and `children = []` — the first post does not get
its successor as a child and the last post does not get its predecessor
as parent — and a fresh `Thread` is allocated for each of the two
posts instead of exactly one rooted at the first. -/
theorem migrate_post1_two_rows_defect :
    (migratePost1Table [(0, ⟨0, "a", 9⟩), (1, ⟨1, "b", 9⟩)]
        { threads := [], hk := HighestKeys.fresh }).1
      = [(0, ⟨0, "a", 9, none, []⟩), (1, ⟨1, "b", 9, none, []⟩)] ∧
    (migratePost1Table [(0, ⟨0, "a", 9⟩), (1, ⟨1, "b", 9⟩)]
        { threads := [], hk := HighestKeys.fresh }).2.threads
      = [(0, ⟨0, "", 0⟩), (1, ⟨1, "", 1⟩)] := by
  constructor
  · rfl
  · rfl

/-- Claim C1, counterexample: on a fresh database the first
`next(Users)` call returns id `0`, not `1` as the claim states —
sled's `fetch_and_update` returns the *previous* stored entry, and the
code deserializes that previous entry (default `0`). -/
theorem first_key_on_fresh_db_is_zero :
    (HighestKeys.fresh.next TableType.users).1 = 0 ∧
      (HighestKeys.fresh.next TableType.users).1 ≠ 1 := by
  constructor
  · rfl
  · intro h
    simp [HighestKeys.next, HighestKeys.fresh, HighestKeys.get] at h

/-- Claim C1 (amended): for every table type `t`, `next(t)` atomically
reads the stored counter (defaulting to 0 when absent), stores
`current+1`, and returns `current` (the previous value); in particular
the first call on a fresh database returns id 0, and a sequence of
`n ≤ 2^64` calls returns the distinct, strictly increasing values
`0, 1, …, n-1`. -/
theorem next_key_allocation (t : TableType) (n : Nat) (hn : n ≤ 2 ^ 64) :
    (∀ hk : HighestKeys,
        (hk.next t).1 = (hk.get t).getD 0 ∧
        ((hk.next t).2).get t = some (((hk.get t).getD 0 + 1) % 2 ^ 64)) ∧
    (HighestKeys.fresh.next t).1 = 0 ∧
    (HighestKeys.fresh.nextN t n).1 = List.range n ∧
    (HighestKeys.fresh.nextN t n).1.Pairwise (· < ·) := by
  refine ⟨fun hk => ⟨rfl, HighestKeys.next_stores hk t⟩, ?_, ?_, ?_⟩
  · cases t <;> rfl
  · exact HighestKeys.nextN_fresh t n hn
  · rw [HighestKeys.nextN_fresh t n hn]
    exact List.pairwise_lt_range n

/-- Witness for `next_key_allocation` at `t = Posts`, `n = 3`. -/
theorem next_key_allocation_witness :
    (3 : Nat) ≤ 2 ^ 64 ∧
      (HighestKeys.fresh.nextN TableType.posts 3).1 = List.range 3 :=
  ⟨by norm_num, (next_key_allocation TableType.posts 3 (by norm_num)).2.2.1⟩

end Lunachat
